import Mathlib

/-!
Shallow embedding of the reference-counting demo crate.

Source files modelled here:
* src/demo/my_weak.rs : single-threaded Rc / Weak over Cell counters,
  with a shared Inner block holding the value and both counts;
* src/demo/my_arc.rs  : thread-safe Arc / Weak over AtomicUsize counters
  with the same block layout.

The heap cell (Inner) is modelled by CellState: either live with the stored
value and the two usize counters, or freed (Box::from_raw has consumed it).
Each Rust method becomes a function on CellState; calling a method through a
dangling pointer (a freed cell) is undefined behaviour in Rust and is
modelled as the Option value none.  usize arithmetic is modelled as Nat with
an explicit wrap at 2 ^ 64.

On top of the cell a ghost system state Sys tracks how many strong and weak
handles the client currently owns; the step relation only permits calling a
method through a handle the client actually has, which is exactly what
Rust's ownership discipline enforces (Drop runs once per handle, Clone and
upgrade are called on live handles).  Teardown emits the events
valueDestroyed and blockFreed when Box::from_raw drops the Inner.

For the memory-ordering claims about my_arc.rs a second, syntactic model
lists the atomic instructions each method executes together with their
Ordering arguments, read off the source line by line.
-/

set_option maxHeartbeats 1000000

/-- Width bound of usize on the 64-bit targets the demo compiles for. -/
def USIZE : Nat := 2 ^ 64

/-- Wrapping usize increment, as computed by set(get()+1) and fetch_add(1). -/
def uadd1 (n : Nat) : Nat := (n + 1) % USIZE

/-- Wrapping usize decrement, as computed by set(get()-1) and fetch_sub(1). -/
def usub1 (n : Nat) : Nat := (n + (USIZE - 1)) % USIZE

theorem USIZE_pos : 0 < USIZE := by
  unfold USIZE
  exact pow_pos (by norm_num) 64

theorem uadd1_eq {n : Nat} (h : n + 1 < USIZE) : uadd1 n = n + 1 :=
  Nat.mod_eq_of_lt h

theorem usub1_eq {n : Nat} (h1 : 1 ≤ n) (h2 : n ≤ USIZE) : usub1 n = n - 1 := by
  have hU := USIZE_pos
  unfold usub1
  have he : n + (USIZE - 1) = (n - 1) + USIZE := by omega
  rw [he, Nat.add_mod_right]
  exact Nat.mod_eq_of_lt (by omega)

theorem usub1_one : usub1 1 = 0 :=
  usub1_eq (Nat.le_refl 1) USIZE_pos

/-- Observable teardown events: dropping the Inner via Box::from_raw first
runs the destructor of the stored value, then returns the block's memory to
the allocator. -/
inductive Event where
  | valueDestroyed
  | blockFreed
deriving DecidableEq, Repr

/-- State of the heap cell holding Inner: the stored value plus the strong
and weak counters, or freed once Box::from_raw has consumed the allocation. -/
inductive CellState (T : Type) where
  | live (value : T) (strong : Nat) (weak : Nat)
  | freed
deriving DecidableEq, Repr

/-- Strong counter as stored in the cell; a freed cell has no counter and is
read as 0 (only used for stating observations, never by the model's code). -/
def strongCountOf {T : Type} : CellState T → Nat
  | .live _ s _ => s
  | .freed => 0

/-- Client-side operations on one control block. -/
inductive Op where
  | cloneStrong
  | downgrade
  | dropStrong
  | cloneWeak
  | dropWeak
  | upgrade
deriving DecidableEq, Repr

/-- Number of occurrences of one event in a trace. -/
def countEvent (e : Event) : List Event → Nat
  | [] => 0
  | e2 :: rest => (if e2 = e then 1 else 0) + countEvent e rest

/-- Number of occurrences of one operation in an operation list. -/
def countOp (op : Op) : List Op → Nat
  | [] => 0
  | op2 :: rest => (if op2 = op then 1 else 0) + countOp op rest

/-- Ghost system state: how many strong and weak handles the client holds,
the cell they all point at, the teardown events emitted so far, and the
results returned by the upgrade calls made so far. -/
structure Sys (T : Type) where
  nStrong : Nat
  nWeak : Nat
  cell : CellState T
  events : List Event
  upgrades : List (Option T)
deriving DecidableEq, Repr

/-- The six methods of one variant, as functions on the heap cell. -/
structure Ops (T : Type) where
  cloneS : CellState T → Option (CellState T)
  downgradeS : CellState T → Option (CellState T)
  dropS : CellState T → Option (CellState T × List Event)
  cloneW : CellState T → Option (CellState T)
  dropW : CellState T → Option (CellState T × List Event)
  upgradeW : CellState T → Option (Option T × CellState T)

/-- One client step: an operation may only be invoked through a handle the
client actually holds, and the corresponding source method then acts on the
cell.  none marks an impossible call (no such handle) or undefined
behaviour inside the method (access through a dangling pointer). -/
def step {T : Type} (os : Ops T) (σ : Sys T) : Op → Option (Sys T)
  | .cloneStrong =>
      if σ.nStrong = 0 then none else
        (os.cloneS σ.cell).map fun c =>
          { σ with nStrong := σ.nStrong + 1, cell := c }
  | .downgrade =>
      if σ.nStrong = 0 then none else
        (os.downgradeS σ.cell).map fun c =>
          { σ with nWeak := σ.nWeak + 1, cell := c }
  | .dropStrong =>
      if σ.nStrong = 0 then none else
        (os.dropS σ.cell).map fun p =>
          { σ with nStrong := σ.nStrong - 1, cell := p.1, events := σ.events ++ p.2 }
  | .cloneWeak =>
      if σ.nWeak = 0 then none else
        (os.cloneW σ.cell).map fun c =>
          { σ with nWeak := σ.nWeak + 1, cell := c }
  | .dropWeak =>
      if σ.nWeak = 0 then none else
        (os.dropW σ.cell).map fun p =>
          { σ with nWeak := σ.nWeak - 1, cell := p.1, events := σ.events ++ p.2 }
  | .upgrade =>
      if σ.nWeak = 0 then none else
        (os.upgradeW σ.cell).map fun p =>
          { σ with nStrong := σ.nStrong + (if p.1.isSome then 1 else 0),
                   cell := p.2, upgrades := σ.upgrades ++ [p.1] }

/-- Run a list of client operations from a system state. -/
def run {T : Type} (os : Ops T) : Sys T → List Op → Option (Sys T)
  | σ, [] => some σ
  | σ, op :: rest =>
      match step os σ op with
      | none => none
      | some σ2 => run os σ2 rest

theorem run_cons {T : Type} (os : Ops T) (σ : Sys T) (op : Op) (rest : List Op) :
    run os σ (op :: rest) = (step os σ op).bind fun σ2 => run os σ2 rest := by
  cases h : step os σ op <;> simp [run, h]

/-- Reachability invariant, indexed by a bound n on the total handle count:
either the cell is live, its counters agree exactly with the ghost handle
counts, at least one handle exists and nothing has been torn down, or the
cell is freed, no handle remains, and teardown happened exactly once. -/
def ReachInv {T : Type} (v : T) (n : Nat) (σ : Sys T) : Prop :=
  (σ.cell = CellState.live v σ.nStrong σ.nWeak ∧ 0 < σ.nStrong + σ.nWeak ∧
     σ.events = [] ∧ σ.nStrong + σ.nWeak ≤ n) ∨
  (σ.cell = CellState.freed ∧ σ.nStrong = 0 ∧ σ.nWeak = 0 ∧
     σ.events = [Event.valueDestroyed, Event.blockFreed])

/-- Invariant preservation lifted from single steps to whole runs. -/
theorem inv_run {T : Type} (v : T) (os : Ops T)
    (H : ∀ (n : Nat) (σ σ2 : Sys T) (op : Op), n + 1 < USIZE → ReachInv v n σ →
      step os σ op = some σ2 → ReachInv v (n + 1) σ2) :
    ∀ (ops : List Op) (n : Nat) (σ0 σ : Sys T), n + ops.length < USIZE →
      ReachInv v n σ0 → run os σ0 ops = some σ → ReachInv v (n + ops.length) σ := by
  intro ops
  induction ops with
  | nil =>
    intro n σ0 σ hlen hI h
    simp only [run, Option.some.injEq] at h
    subst h
    simpa using hI
  | cons op rest ih =>
    intro n σ0 σ hlen hI h
    rw [run_cons] at h
    cases hs : step os σ0 op with
    | none => rw [hs] at h; simp at h
    | some σ1 =>
      rw [hs] at h
      simp only [Option.some_bind] at h
      have hlen2 : n + (op :: rest).length = (n + 1) + rest.length := by
        simp [List.length_cons]; omega
      have hI1 : ReachInv v (n + 1) σ1 := by
        refine H n σ0 σ1 op ?_ hI hs
        simp [List.length_cons] at hlen
        omega
      have hfin : ReachInv v ((n + 1) + rest.length) σ := by
        refine ih (n + 1) σ1 σ ?_ hI1 h
        simp [List.length_cons] at hlen
        omega
      rw [hlen2]
      exact hfin

namespace MyWeak

variable {T : Type}

/-- Rc::new in my_weak.rs: allocates Inner with the value, strong_count 1
and weak_count 0. -/
def Rc.new (v : T) : CellState T :=
  CellState.live v 1 0

/-- Clone for Rc in my_weak.rs: strong_count.set(strong_count() + 1). -/
def Rc.clone : CellState T → Option (CellState T)
  | .live v s w => some (.live v (uadd1 s) w)
  | .freed => none

/-- Rc::downgrade in my_weak.rs: weak_count.set(weak_count() + 1). -/
def Rc.downgrade : CellState T → Option (CellState T)
  | .live v s w => some (.live v s (uadd1 w))
  | .freed => none

/-- Deref for Rc in my_weak.rs: a shared borrow of inner().value. -/
def Rc.deref : CellState T → Option T
  | .live v _ _ => some v
  | .freed => none

/-- Drop for Rc in my_weak.rs: if strong_count > 1 decrement it; otherwise
if weak_count is 0 run Box::from_raw (dropping the value and freeing the
Inner), else merely store 0 into strong_count (the value is not dropped). -/
def Rc.drop : CellState T → Option (CellState T × List Event)
  | .live v s w =>
      if 1 < s then some (.live v (usub1 s) w, [])
      else if w = 0 then some (.freed, [Event.valueDestroyed, Event.blockFreed])
      else some (.live v 0 w, [])
  | .freed => none

/-- Weak::upgrade in my_weak.rs: read strong_count; if 0 return None, else
set strong_count + 1 and return a new Rc on the same Inner. -/
def Weak.upgrade : CellState T → Option (Option T × CellState T)
  | .live v s w =>
      if s = 0 then some (none, .live v s w)
      else some (some v, .live v (uadd1 s) w)
  | .freed => none

/-- Clone for Weak in my_weak.rs: weak_count.set(weak_count() + 1). -/
def Weak.clone : CellState T → Option (CellState T)
  | .live v s w => some (.live v s (uadd1 w))
  | .freed => none

/-- Drop for Weak in my_weak.rs: if weak_count > 1 decrement it; otherwise
if strong_count is 0 run Box::from_raw (dropping the value and freeing the
Inner), else merely store 0 into weak_count. -/
def Weak.drop : CellState T → Option (CellState T × List Event)
  | .live v s w =>
      if 1 < w then some (.live v s (usub1 w), [])
      else if s = 0 then some (.freed, [Event.valueDestroyed, Event.blockFreed])
      else some (.live v s 0, [])
  | .freed => none

/-- The six my_weak.rs methods packaged for the step relation. -/
def ops : Ops T :=
  { cloneS := Rc.clone, downgradeS := Rc.downgrade, dropS := Rc.drop,
    cloneW := Weak.clone, dropW := Weak.drop, upgradeW := Weak.upgrade }

@[simp] theorem weakOps_cloneS : (ops : Ops T).cloneS = Rc.clone := rfl
@[simp] theorem weakOps_downgradeS : (ops : Ops T).downgradeS = Rc.downgrade := rfl
@[simp] theorem weakOps_dropS : (ops : Ops T).dropS = Rc.drop := rfl
@[simp] theorem weakOps_cloneW : (ops : Ops T).cloneW = Weak.clone := rfl
@[simp] theorem weakOps_dropW : (ops : Ops T).dropW = Weak.drop := rfl
@[simp] theorem weakOps_upgradeW : (ops : Ops T).upgradeW = Weak.upgrade := rfl

/-- System state right after the construction Rc::new(v): the client holds
exactly one strong handle and no weak handle. -/
def init (v : T) : Sys T :=
  { nStrong := 1, nWeak := 0, cell := Rc.new v, events := [], upgrades := [] }

/-- One step of the my_weak.rs semantics preserves the reachability
invariant, as long as the handle-count bound stays below the usize wrap. -/
theorem weakInvStep (v : T) (n : Nat) (σ σ2 : Sys T) (op : Op)
    (hb : n + 1 < USIZE) (hI : ReachInv v n σ)
    (h : step ops σ op = some σ2) : ReachInv v (n + 1) σ2 := by
  rcases hI with ⟨hc, hpos, hev, hle⟩ | ⟨hc, hs0, hw0, hev⟩
  · cases op
    case cloneStrong =>
      by_cases hz : σ.nStrong = 0
      · simp [step, hz] at h
      · simp only [step, hz, if_false, weakOps_cloneS, hc, Rc.clone, Option.map_some',
          Option.some.injEq] at h
        have hadd : uadd1 σ.nStrong = σ.nStrong + 1 := uadd1_eq (by omega)
        subst h
        left
        refine ⟨?_, by simp <;> omega, by simpa using hev, by simp <;> omega⟩
        simp [hadd]
    case downgrade =>
      by_cases hz : σ.nStrong = 0
      · simp [step, hz] at h
      · simp only [step, hz, if_false, weakOps_downgradeS, hc, Rc.downgrade,
          Option.map_some', Option.some.injEq] at h
        have hadd : uadd1 σ.nWeak = σ.nWeak + 1 := uadd1_eq (by omega)
        subst h
        left
        refine ⟨?_, by simp <;> omega, by simpa using hev, by simp <;> omega⟩
        simp [hadd]
    case dropStrong =>
      by_cases hz : σ.nStrong = 0
      · simp [step, hz] at h
      · simp only [step, hz, if_false, weakOps_dropS, hc, Rc.drop] at h
        by_cases h1 : 1 < σ.nStrong
        · have hsub : usub1 σ.nStrong = σ.nStrong - 1 := usub1_eq (by omega) (by omega)
          simp only [h1, if_true, Option.map_some', Option.some.injEq] at h
          subst h
          left
          refine ⟨?_, by simp <;> omega, by simpa using hev, by simp <;> omega⟩
          simp [hsub]
        · simp only [h1, if_false] at h
          by_cases h2 : σ.nWeak = 0
          · simp only [h2, if_true, Option.map_some', Option.some.injEq] at h
            subst h
            right
            exact ⟨rfl, by simp <;> omega, by simpa using h2, by simp [hev]⟩
          · simp only [h2, if_false, Option.map_some', Option.some.injEq] at h
            subst h
            left
            refine ⟨?_, by simp <;> omega, by simpa using hev, by simp <;> omega⟩
            have : σ.nStrong = 1 := by omega
            simp [this]
    case cloneWeak =>
      by_cases hz : σ.nWeak = 0
      · simp [step, hz] at h
      · simp only [step, hz, if_false, weakOps_cloneW, hc, Weak.clone, Option.map_some',
          Option.some.injEq] at h
        have hadd : uadd1 σ.nWeak = σ.nWeak + 1 := uadd1_eq (by omega)
        subst h
        left
        refine ⟨?_, by simp <;> omega, by simpa using hev, by simp <;> omega⟩
        simp [hadd]
    case dropWeak =>
      by_cases hz : σ.nWeak = 0
      · simp [step, hz] at h
      · simp only [step, hz, if_false, weakOps_dropW, hc, Weak.drop] at h
        by_cases h1 : 1 < σ.nWeak
        · have hsub : usub1 σ.nWeak = σ.nWeak - 1 := usub1_eq (by omega) (by omega)
          simp only [h1, if_true, Option.map_some', Option.some.injEq] at h
          subst h
          left
          refine ⟨?_, by simp <;> omega, by simpa using hev, by simp <;> omega⟩
          simp [hsub]
        · simp only [h1, if_false] at h
          by_cases h2 : σ.nStrong = 0
          · simp only [h2, if_true, Option.map_some', Option.some.injEq] at h
            subst h
            right
            exact ⟨rfl, by simpa using h2, by simp <;> omega, by simp [hev]⟩
          · simp only [h2, if_false, Option.map_some', Option.some.injEq] at h
            subst h
            left
            refine ⟨?_, by simp <;> omega, by simpa using hev, by simp <;> omega⟩
            have : σ.nWeak = 1 := by omega
            simp [this]
    case upgrade =>
      by_cases hz : σ.nWeak = 0
      · simp [step, hz] at h
      · simp only [step, hz, if_false, weakOps_upgradeW, hc, Weak.upgrade] at h
        by_cases h1 : σ.nStrong = 0
        · simp only [h1, if_true, Option.map_some', Option.some.injEq] at h
          subst h
          left
          refine ⟨?_, by simp <;> omega, by simpa using hev, by simp <;> omega⟩
          simp [h1]
        · have hadd : uadd1 σ.nStrong = σ.nStrong + 1 := uadd1_eq (by omega)
          simp only [h1, if_false, Option.map_some', Option.some.injEq] at h
          subst h
          left
          refine ⟨?_, by simp <;> omega, by simpa using hev, by simp <;> omega⟩
          simp [hadd]
  · cases op <;> simp [step, hs0, hw0] at h

/-- Every state reachable from Rc::new(v) by a handle-respecting trace of
fewer than USIZE operations is either live with counters equal to the ghost
handle counts and no teardown yet, or freed with no handles and the single
teardown [valueDestroyed, blockFreed]. -/
theorem weakReachable (v : T) (ops2 : List Op) (σ : Sys T)
    (hlen : 1 + ops2.length < USIZE)
    (h : run ops (init v) ops2 = some σ) :
    (σ.cell = CellState.live v σ.nStrong σ.nWeak ∧ 0 < σ.nStrong + σ.nWeak ∧
       σ.events = []) ∨
    (σ.cell = CellState.freed ∧ σ.nStrong = 0 ∧ σ.nWeak = 0 ∧
       σ.events = [Event.valueDestroyed, Event.blockFreed]) := by
  have hI0 : ReachInv v 1 (init v) := by
    left
    exact ⟨rfl, by simp [init], rfl, by simp [init]⟩
  have := inv_run v ops (fun n σa σb op hb hI hstep => weakInvStep v n σa σb op hb hI hstep)
    ops2 1 (init v) σ hlen hI0 h
  rcases this with ⟨hc, hpos, hev, _⟩ | hfr
  · exact Or.inl ⟨hc, hpos, hev⟩
  · exact Or.inr hfr

end MyWeak

namespace MyArc

variable {T : Type}

/-- Arc::new in my_arc.rs: allocates Inner with the value, strong_count 1
and weak_count 0 (AtomicUsize fields). -/
def Arc.new (v : T) : CellState T :=
  CellState.live v 1 0

/-- Clone for Arc in my_arc.rs: strong_count.fetch_add(1, Relaxed). -/
def Arc.clone : CellState T → Option (CellState T)
  | .live v s w => some (.live v (uadd1 s) w)
  | .freed => none

/-- Arc::downgrade in my_arc.rs: weak_count.fetch_add(1, Relaxed). -/
def Arc.downgrade : CellState T → Option (CellState T)
  | .live v s w => some (.live v s (uadd1 w))
  | .freed => none

/-- Deref for Arc in my_arc.rs: a shared borrow of inner().value. -/
def Arc.deref : CellState T → Option T
  | .live v _ _ => some v
  | .freed => none

/-- Drop for Arc in my_arc.rs: strong_count.fetch_sub(1, Release) returns
the old value s; only when it was 1 the fence(Acquire) runs and then either
Box::from_raw (weak_count 0) or an explicit strong_count.store(0, Relaxed).
Written as the branch on the old value, with the fetch_sub decrement folded
into each branch. -/
def Arc.drop : CellState T → Option (CellState T × List Event)
  | .live v s w =>
      if s = 1 then
        if w = 0 then some (.freed, [Event.valueDestroyed, Event.blockFreed])
        else some (.live v 0 w, [])
      else some (.live v (usub1 s) w, [])
  | .freed => none

/-- Modelled from the spec: the section 9 open-question variant of Drop for
Arc that omits the explicit store(0, Relaxed) and leaves the strong counter
at its natural post-decrement value after fetch_sub(1, Release) from 1. -/
def Arc.dropNoStore : CellState T → Option (CellState T × List Event)
  | .live v s w =>
      if s = 1 then
        if w = 0 then some (.freed, [Event.valueDestroyed, Event.blockFreed])
        else some (.live v (usub1 s) w, [])
      else some (.live v (usub1 s) w, [])
  | .freed => none

/-- Weak::upgrade in my_arc.rs: load the strong count (Relaxed); if 0 return
None, else strong_count.fetch_add(1, Relaxed) and return a new Arc. -/
def Weak.upgrade : CellState T → Option (Option T × CellState T)
  | .live v s w =>
      if s = 0 then some (none, .live v s w)
      else some (some v, .live v (uadd1 s) w)
  | .freed => none

/-- Clone for Weak in my_arc.rs: weak_count.fetch_add(1, Relaxed). -/
def Weak.clone : CellState T → Option (CellState T)
  | .live v s w => some (.live v s (uadd1 w))
  | .freed => none

/-- Drop for Weak in my_arc.rs: weak_count.fetch_sub(1, Release) returns the
old value w; only when it was 1 the fence(Acquire) runs and Box::from_raw is
called when the strong count is 0; otherwise nothing further happens. -/
def Weak.drop : CellState T → Option (CellState T × List Event)
  | .live v s w =>
      if w = 1 then
        if s = 0 then some (.freed, [Event.valueDestroyed, Event.blockFreed])
        else some (.live v s (usub1 w), [])
      else some (.live v s (usub1 w), [])
  | .freed => none

/-- The six my_arc.rs methods packaged for the step relation. -/
def ops : Ops T :=
  { cloneS := Arc.clone, downgradeS := Arc.downgrade, dropS := Arc.drop,
    cloneW := Weak.clone, dropW := Weak.drop, upgradeW := Weak.upgrade }

/-- The same methods with Drop for Arc replaced by the store-omitting
variant of the spec's section 9 open question. -/
def opsNoStore : Ops T :=
  { cloneS := Arc.clone, downgradeS := Arc.downgrade, dropS := Arc.dropNoStore,
    cloneW := Weak.clone, dropW := Weak.drop, upgradeW := Weak.upgrade }

@[simp] theorem arcOps_cloneS : (ops : Ops T).cloneS = Arc.clone := rfl
@[simp] theorem arcOps_downgradeS : (ops : Ops T).downgradeS = Arc.downgrade := rfl
@[simp] theorem arcOps_dropS : (ops : Ops T).dropS = Arc.drop := rfl
@[simp] theorem arcOps_cloneW : (ops : Ops T).cloneW = Weak.clone := rfl
@[simp] theorem arcOps_dropW : (ops : Ops T).dropW = Weak.drop := rfl
@[simp] theorem arcOps_upgradeW : (ops : Ops T).upgradeW = Weak.upgrade := rfl

/-- System state right after the construction Arc::new(v). -/
def init (v : T) : Sys T :=
  { nStrong := 1, nWeak := 0, cell := Arc.new v, events := [], upgrades := [] }

/-- The two Drop implementations for Arc coincide as functions on the heap
cell: when the old strong count was 1, fetch_sub already left the counter at
0, so the explicit store(0, Relaxed) writes the value that is already there. -/
theorem drop_eq : (Arc.drop : CellState T → Option (CellState T × List Event)) = Arc.dropNoStore := by
  funext c
  cases c with
  | freed => rfl
  | live v s w =>
    simp only [Arc.drop, Arc.dropNoStore]
    by_cases h1 : s = 1
    · subst h1
      by_cases h2 : w = 0 <;> simp [h2, usub1_one]
    · simp [h1]

/-- One step of the my_arc.rs semantics preserves the reachability
invariant, as long as the handle-count bound stays below the usize wrap. -/
theorem arcInvStep (v : T) (n : Nat) (σ σ2 : Sys T) (op : Op)
    (hb : n + 1 < USIZE) (hI : ReachInv v n σ)
    (h : step ops σ op = some σ2) : ReachInv v (n + 1) σ2 := by
  rcases hI with ⟨hc, hpos, hev, hle⟩ | ⟨hc, hs0, hw0, hev⟩
  · cases op
    case cloneStrong =>
      by_cases hz : σ.nStrong = 0
      · simp [step, hz] at h
      · simp only [step, hz, if_false, arcOps_cloneS, hc, Arc.clone, Option.map_some',
          Option.some.injEq] at h
        have hadd : uadd1 σ.nStrong = σ.nStrong + 1 := uadd1_eq (by omega)
        subst h
        left
        refine ⟨?_, by simp <;> omega, by simpa using hev, by simp <;> omega⟩
        simp [hadd]
    case downgrade =>
      by_cases hz : σ.nStrong = 0
      · simp [step, hz] at h
      · simp only [step, hz, if_false, arcOps_downgradeS, hc, Arc.downgrade,
          Option.map_some', Option.some.injEq] at h
        have hadd : uadd1 σ.nWeak = σ.nWeak + 1 := uadd1_eq (by omega)
        subst h
        left
        refine ⟨?_, by simp <;> omega, by simpa using hev, by simp <;> omega⟩
        simp [hadd]
    case dropStrong =>
      by_cases hz : σ.nStrong = 0
      · simp [step, hz] at h
      · simp only [step, hz, if_false, arcOps_dropS, hc, Arc.drop] at h
        by_cases h1 : σ.nStrong = 1
        · simp only [h1, if_true] at h
          by_cases h2 : σ.nWeak = 0
          · simp only [h2, if_true, Option.map_some', Option.some.injEq] at h
            subst h
            right
            exact ⟨rfl, by simp [h1], by simpa using h2, by simp [hev]⟩
          · simp only [h2, if_false, Option.map_some', Option.some.injEq] at h
            subst h
            left
            refine ⟨?_, by simp <;> omega, by simpa using hev, by simp <;> omega⟩
            simp [h1]
        · have hsub : usub1 σ.nStrong = σ.nStrong - 1 := usub1_eq (by omega) (by omega)
          simp only [h1, if_false, Option.map_some', Option.some.injEq] at h
          subst h
          left
          refine ⟨?_, by simp <;> omega, by simpa using hev, by simp <;> omega⟩
          simp [hsub]
    case cloneWeak =>
      by_cases hz : σ.nWeak = 0
      · simp [step, hz] at h
      · simp only [step, hz, if_false, arcOps_cloneW, hc, Weak.clone, Option.map_some',
          Option.some.injEq] at h
        have hadd : uadd1 σ.nWeak = σ.nWeak + 1 := uadd1_eq (by omega)
        subst h
        left
        refine ⟨?_, by simp <;> omega, by simpa using hev, by simp <;> omega⟩
        simp [hadd]
    case dropWeak =>
      by_cases hz : σ.nWeak = 0
      · simp [step, hz] at h
      · simp only [step, hz, if_false, arcOps_dropW, hc, Weak.drop] at h
        by_cases h1 : σ.nWeak = 1
        · simp only [h1, if_true] at h
          by_cases h2 : σ.nStrong = 0
          · simp only [h2, if_true, Option.map_some', Option.some.injEq] at h
            subst h
            right
            exact ⟨rfl, by simpa using h2, by simp [h1], by simp [hev]⟩
          · simp only [h2, if_false, Option.map_some', Option.some.injEq] at h
            subst h
            left
            refine ⟨?_, by simp <;> omega, by simpa using hev, by simp <;> omega⟩
            simp [h1, usub1_one]
        · have hsub : usub1 σ.nWeak = σ.nWeak - 1 := usub1_eq (by omega) (by omega)
          simp only [h1, if_false, Option.map_some', Option.some.injEq] at h
          subst h
          left
          refine ⟨?_, by simp <;> omega, by simpa using hev, by simp <;> omega⟩
          simp [hsub]
    case upgrade =>
      by_cases hz : σ.nWeak = 0
      · simp [step, hz] at h
      · simp only [step, hz, if_false, arcOps_upgradeW, hc, Weak.upgrade] at h
        by_cases h1 : σ.nStrong = 0
        · simp only [h1, if_true, Option.map_some', Option.some.injEq] at h
          subst h
          left
          refine ⟨?_, by simp <;> omega, by simpa using hev, by simp <;> omega⟩
          simp [h1]
        · have hadd : uadd1 σ.nStrong = σ.nStrong + 1 := uadd1_eq (by omega)
          simp only [h1, if_false, Option.map_some', Option.some.injEq] at h
          subst h
          left
          refine ⟨?_, by simp <;> omega, by simpa using hev, by simp <;> omega⟩
          simp [hadd]
  · cases op <;> simp [step, hs0, hw0] at h

/-- Every state reachable from Arc::new(v) by a handle-respecting trace of
fewer than USIZE operations is either live with counters equal to the ghost
handle counts and no teardown yet, or freed with no handles and the single
teardown [valueDestroyed, blockFreed]. -/
theorem arcReachable (v : T) (ops2 : List Op) (σ : Sys T)
    (hlen : 1 + ops2.length < USIZE)
    (h : run ops (init v) ops2 = some σ) :
    (σ.cell = CellState.live v σ.nStrong σ.nWeak ∧ 0 < σ.nStrong + σ.nWeak ∧
       σ.events = []) ∨
    (σ.cell = CellState.freed ∧ σ.nStrong = 0 ∧ σ.nWeak = 0 ∧
       σ.events = [Event.valueDestroyed, Event.blockFreed]) := by
  have hI0 : ReachInv v 1 (init v) := by
    left
    exact ⟨rfl, by simp [init], rfl, by simp [init]⟩
  have := inv_run v ops (fun n σa σb op hb hI hstep => arcInvStep v n σa σb op hb hI hstep)
    ops2 1 (init v) σ hlen hI0 h
  rcases this with ⟨hc, hpos, hev, _⟩ | hfr
  · exact Or.inl ⟨hc, hpos, hev⟩
  · exact Or.inr hfr

/-- Memory orderings as passed to the atomic operations in my_arc.rs. -/
inductive MemOrder where
  | relaxed
  | release
  | acquire
  | acqrel
  | seqcst
deriving DecidableEq, Repr

/-- The two shared counters of the Inner block. -/
inductive Ctr where
  | strong
  | weak
deriving DecidableEq, Repr

/-- Atomic instructions a method of my_arc.rs can execute on the shared
counters, each with its Ordering argument.  The compareExchange form is the
read-modify-write primitive a compare-and-swap retry loop would use; it is
part of the vocabulary so that its absence from a method's instruction list
can be stated. -/
inductive AtomicAct where
  | load (c : Ctr) (o : MemOrder)
  | store (c : Ctr) (val : Nat) (o : MemOrder)
  | fetchAdd (c : Ctr) (o : MemOrder)
  | fetchSub (c : Ctr) (o : MemOrder)
  | compareExchange (c : Ctr) (success failure : MemOrder)
  | fence (o : MemOrder)
  | freeBlock
deriving DecidableEq, Repr

/-- Whether an instruction is a conditional read-modify-write (the primitive
of a compare-and-swap loop). -/
def AtomicAct.isCompareExchange : AtomicAct → Bool
  | .compareExchange _ _ _ => true
  | _ => false

/-- Whether an instruction is a counter increment performed with an Ordering
other than Relaxed. -/
def AtomicAct.isNonRelaxedIncrement : AtomicAct → Bool
  | .fetchAdd _ o => !(o = MemOrder.relaxed)
  | _ => false

/-- Instructions of Clone for Arc in my_arc.rs. -/
def cloneActs : List AtomicAct :=
  [AtomicAct.fetchAdd Ctr.strong MemOrder.relaxed]

/-- Instructions of Arc::downgrade in my_arc.rs. -/
def downgradeActs : List AtomicAct :=
  [AtomicAct.fetchAdd Ctr.weak MemOrder.relaxed]

/-- Instructions of Clone for Weak in my_arc.rs. -/
def weakCloneActs : List AtomicAct :=
  [AtomicAct.fetchAdd Ctr.weak MemOrder.relaxed]

/-- Instructions of Weak::upgrade in my_arc.rs, as a function of the strong
count value the initial load observed: a Relaxed load, then, unless the
observed value was 0, a separate unconditional Relaxed fetch_add. -/
def upgradeActs (observed : Nat) : List AtomicAct :=
  AtomicAct.load Ctr.strong MemOrder.relaxed ::
    (if observed = 0 then [] else [AtomicAct.fetchAdd Ctr.strong MemOrder.relaxed])

/-- Instructions of Drop for Arc in my_arc.rs, as a function of the old
strong count returned by fetch_sub and of the weak count read afterwards:
a Release fetch_sub, and only when the old value was 1 an Acquire fence, a
Relaxed load of the weak count, then either the free or the explicit
Relaxed store of 0. -/
def dropActs (oldStrong observedWeak : Nat) : List AtomicAct :=
  AtomicAct.fetchSub Ctr.strong MemOrder.release ::
    (if oldStrong = 1 then
      AtomicAct.fence MemOrder.acquire ::
        AtomicAct.load Ctr.weak MemOrder.relaxed ::
          (if observedWeak = 0 then [AtomicAct.freeBlock]
           else [AtomicAct.store Ctr.strong 0 MemOrder.relaxed])
     else [])

/-- Instructions of Drop for Weak in my_arc.rs, as a function of the old
weak count returned by fetch_sub and of the strong count read afterwards:
a Release fetch_sub, and only when the old value was 1 an Acquire fence, a
Relaxed load of the strong count, then the free when that load returned 0. -/
def weakDropActs (oldWeak observedStrong : Nat) : List AtomicAct :=
  AtomicAct.fetchSub Ctr.weak MemOrder.release ::
    (if oldWeak = 1 then
      AtomicAct.fence MemOrder.acquire ::
        AtomicAct.load Ctr.strong MemOrder.relaxed ::
          (if observedStrong = 0 then [AtomicAct.freeBlock] else [])
     else [])

end MyArc

/-- Ghost accounting for traces made of strong-handle duplications and
disposals only: the number of strong handles plus the disposals performed
equals the single construction plus the duplications performed, and the
number of weak handles never changes. -/
theorem MyWeak.strong_account {T : Type} :
    ∀ (ops2 : List Op) (σ0 σ : Sys T),
      (∀ op ∈ ops2, op = Op.cloneStrong ∨ op = Op.dropStrong) →
      run MyWeak.ops σ0 ops2 = some σ →
      σ.nStrong + countOp Op.dropStrong ops2 =
        σ0.nStrong + countOp Op.cloneStrong ops2 ∧
      σ.nWeak = σ0.nWeak := by
  intro ops2
  induction ops2 with
  | nil =>
    intro σ0 σ _ h
    simp only [run, Option.some.injEq] at h
    subst h
    simp [countOp]
  | cons op rest ih =>
    intro σ0 σ hops h
    rw [run_cons] at h
    cases hs : step MyWeak.ops σ0 op with
    | none => rw [hs] at h; simp at h
    | some σ1 =>
      rw [hs] at h
      simp only [Option.some_bind] at h
      have hrest : ∀ op2 ∈ rest, op2 = Op.cloneStrong ∨ op2 = Op.dropStrong :=
        fun op2 hm => hops op2 (List.mem_cons_of_mem op hm)
      rcases hops op (List.mem_cons_self op rest) with hop | hop
      · subst hop
        by_cases hz : σ0.nStrong = 0
        · simp [step, hz] at hs
        · simp only [step, hz, if_false, MyWeak.weakOps_cloneS] at hs
          cases hcell : MyWeak.Rc.clone σ0.cell with
          | none => rw [hcell] at hs; simp at hs
          | some c =>
            rw [hcell] at hs
            simp only [Option.map_some', Option.some.injEq] at hs
            subst hs
            have hrec := ih _ σ hrest h
            simp only [countOp]
            constructor
            · simp at hrec ⊢
              omega
            · simpa using hrec.2
      · subst hop
        by_cases hz : σ0.nStrong = 0
        · simp [step, hz] at hs
        · simp only [step, hz, if_false, MyWeak.weakOps_dropS] at hs
          cases hcell : MyWeak.Rc.drop σ0.cell with
          | none => rw [hcell] at hs; simp at hs
          | some p =>
            rw [hcell] at hs
            simp only [Option.map_some', Option.some.injEq] at hs
            subst hs
            have hrec := ih _ σ hrest h
            simp only [countOp]
            constructor
            · simp at hrec ⊢
              omega
            · simpa using hrec.2

/-- Claim C1, counterexample.  The claim states that disposing the last
strong handle while a weak handle still exists runs the value's destructor
at that instant, in both variants.  In both my_weak.rs and my_arc.rs the
trace construct, downgrade, dispose-strong reaches the state with strong
count 0 and weak count 1 with an empty event trace: no valueDestroyed event
was emitted at the 1-to-0 transition, because the Drop implementations only
store 0 into the strong counter and never drop the stored value there. -/
theorem C1_counterexample :
    run MyWeak.ops (MyWeak.init (5 : Nat)) [Op.downgrade, Op.dropStrong] =
      some { nStrong := 0, nWeak := 1, cell := CellState.live 5 0 1,
             events := [], upgrades := [] } ∧
    run MyArc.ops (MyArc.init (5 : Nat)) [Op.downgrade, Op.dropStrong] =
      some { nStrong := 0, nWeak := 1, cell := CellState.live 5 0 1,
             events := [], upgrades := [] } :=
  ⟨rfl, rfl⟩

/-- Claim C1, amended.  In both variants the value's destructor runs not at
the strong count's 1-to-0 transition but only when the control block itself
is freed, which happens exactly when both the strong and the weak handle
counts have reached zero; at that point destruction and free happen
together (Box::from_raw drops the Inner, value included). -/
theorem C1_theorem {T : Type} (v : T) (ops2 : List Op) (σw σa : Sys T)
    (hlen : 1 + ops2.length < USIZE)
    (hw : run MyWeak.ops (MyWeak.init v) ops2 = some σw)
    (ha : run MyArc.ops (MyArc.init v) ops2 = some σa) :
    (Event.valueDestroyed ∈ σw.events ↔ (σw.nStrong = 0 ∧ σw.nWeak = 0)) ∧
    (Event.valueDestroyed ∈ σw.events ↔ Event.blockFreed ∈ σw.events) ∧
    (Event.valueDestroyed ∈ σa.events ↔ (σa.nStrong = 0 ∧ σa.nWeak = 0)) ∧
    (Event.valueDestroyed ∈ σa.events ↔ Event.blockFreed ∈ σa.events) := by
  have hW : (Event.valueDestroyed ∈ σw.events ↔ (σw.nStrong = 0 ∧ σw.nWeak = 0)) ∧
      (Event.valueDestroyed ∈ σw.events ↔ Event.blockFreed ∈ σw.events) := by
    rcases MyWeak.weakReachable v ops2 σw hlen hw with ⟨_, hpos, hev⟩ | ⟨_, hs0, hw0, hev⟩
    · exact ⟨by simp [hev] <;> omega, by simp [hev]⟩
    · exact ⟨by simp [hev, hs0, hw0], by simp [hev]⟩
  have hA : (Event.valueDestroyed ∈ σa.events ↔ (σa.nStrong = 0 ∧ σa.nWeak = 0)) ∧
      (Event.valueDestroyed ∈ σa.events ↔ Event.blockFreed ∈ σa.events) := by
    rcases MyArc.arcReachable v ops2 σa hlen ha with ⟨_, hpos, hev⟩ | ⟨_, hs0, hw0, hev⟩
    · exact ⟨by simp [hev] <;> omega, by simp [hev]⟩
    · exact ⟨by simp [hev, hs0, hw0], by simp [hev]⟩
  exact ⟨hW.1, hW.2, hA.1, hA.2⟩

/-- Claim C1, witness for the amended theorem at the concrete trace
construct 5, downgrade, dispose-strong, dispose-weak. -/
theorem C1_witness :
    ((Event.valueDestroyed ∈ [Event.valueDestroyed, Event.blockFreed]) ↔
       ((0 : Nat) = 0 ∧ (0 : Nat) = 0)) ∧
    ((Event.valueDestroyed ∈ [Event.valueDestroyed, Event.blockFreed]) ↔
       (Event.blockFreed ∈ [Event.valueDestroyed, Event.blockFreed])) ∧
    ((Event.valueDestroyed ∈ [Event.valueDestroyed, Event.blockFreed]) ↔
       ((0 : Nat) = 0 ∧ (0 : Nat) = 0)) ∧
    ((Event.valueDestroyed ∈ [Event.valueDestroyed, Event.blockFreed]) ↔
       (Event.blockFreed ∈ [Event.valueDestroyed, Event.blockFreed])) :=
  C1_theorem (5 : Nat) [Op.downgrade, Op.dropStrong, Op.dropWeak]
    { nStrong := 0, nWeak := 0, cell := CellState.freed,
      events := [Event.valueDestroyed, Event.blockFreed], upgrades := [] }
    { nStrong := 0, nWeak := 0, cell := CellState.freed,
      events := [Event.valueDestroyed, Event.blockFreed], upgrades := [] }
    (by decide) rfl rfl

/-- Claim C2: over every handle-respecting trace on one control block of
the single-threaded variant, the backing memory is freed at most once, it
is freed exactly once precisely when both the strong and the weak handle
counts have reached zero, and while either count is nonzero no free has
happened.  The trace quantifier covers both interleaving orders of the
final strong-handle disposal and the final weak-handle disposal. -/
theorem C2_theorem {T : Type} (v : T) (ops2 : List Op) (σ : Sys T)
    (hlen : 1 + ops2.length < USIZE)
    (h : run MyWeak.ops (MyWeak.init v) ops2 = some σ) :
    countEvent Event.blockFreed σ.events ≤ 1 ∧
    (countEvent Event.blockFreed σ.events = 1 ↔ (σ.nStrong = 0 ∧ σ.nWeak = 0)) ∧
    ((0 < σ.nStrong ∨ 0 < σ.nWeak) → countEvent Event.blockFreed σ.events = 0) := by
  rcases MyWeak.weakReachable v ops2 σ hlen h with ⟨_, hpos, hev⟩ | ⟨_, hs0, hw0, hev⟩
  · exact ⟨by simp [hev, countEvent],
      by simp [hev, countEvent] <;> omega,
      by simp [hev, countEvent]⟩
  · exact ⟨by simp [hev, countEvent],
      by simp [hev, countEvent, hs0, hw0],
      by simp [hev, countEvent, hs0, hw0]⟩

/-- Claim C2, witness at the concrete trace construct 5, downgrade,
dispose-strong, dispose-weak (the weak-last interleaving). -/
theorem C2_witness :
    countEvent Event.blockFreed [Event.valueDestroyed, Event.blockFreed] ≤ 1 ∧
    (countEvent Event.blockFreed [Event.valueDestroyed, Event.blockFreed] = 1 ↔
       ((0 : Nat) = 0 ∧ (0 : Nat) = 0)) ∧
    ((0 < (0 : Nat) ∨ 0 < (0 : Nat)) →
       countEvent Event.blockFreed [Event.valueDestroyed, Event.blockFreed] = 0) :=
  C2_theorem (5 : Nat) [Op.downgrade, Op.dropStrong, Op.dropWeak]
    { nStrong := 0, nWeak := 0, cell := CellState.freed,
      events := [Event.valueDestroyed, Event.blockFreed], upgrades := [] }
    (by decide) rfl

/-- Claim C3: in every reachable state of the single-threaded variant in
which the last strong handle has been disposed while weak handles survive,
Weak::upgrade returns None and leaves the cell unchanged; and on any live
cell Weak::upgrade returns None exactly when the observed strong count is
zero. -/
theorem C3_theorem {T : Type} (v u : T) (s w : Nat) (ops2 : List Op) (σ : Sys T)
    (hlen : 1 + ops2.length < USIZE)
    (h : run MyWeak.ops (MyWeak.init v) ops2 = some σ)
    (hs : σ.nStrong = 0) (hwk : 0 < σ.nWeak) :
    MyWeak.Weak.upgrade σ.cell = some (none, σ.cell) ∧
    ((MyWeak.Weak.upgrade (CellState.live u s w)).map Prod.fst = some none ↔ s = 0) := by
  constructor
  · rcases MyWeak.weakReachable v ops2 σ hlen h with ⟨hc, _, _⟩ | ⟨_, _, hw0, _⟩
    · rw [hc]
      simp [MyWeak.Weak.upgrade, hs]
    · omega
  · by_cases hz : s = 0 <;> simp [MyWeak.Weak.upgrade, hz]

/-- Claim C3, witness after construct 5, downgrade, dispose-strong. -/
theorem C3_witness :
    MyWeak.Weak.upgrade (CellState.live (5 : Nat) 0 1) =
      some (none, CellState.live 5 0 1) ∧
    ((MyWeak.Weak.upgrade (CellState.live (7 : Nat) 0 2)).map Prod.fst = some none ↔
       (0 : Nat) = 0) :=
  C3_theorem 5 7 0 2 [Op.downgrade, Op.dropStrong]
    { nStrong := 0, nWeak := 1, cell := CellState.live 5 0 1,
      events := [], upgrades := [] }
    (by decide) rfl rfl (by decide)

/-- Claim C4: in every reachable state of the single-threaded variant in
which at least one strong handle is still live, Weak::upgrade succeeds, the
payload of the returned handle is the originally constructed value, and
dereferencing the returned handle reads that original value unchanged. -/
theorem C4_theorem {T : Type} (v : T) (ops2 : List Op) (σ : Sys T)
    (hlen : 1 + ops2.length < USIZE)
    (h : run MyWeak.ops (MyWeak.init v) ops2 = some σ)
    (hs : 0 < σ.nStrong) :
    MyWeak.Weak.upgrade σ.cell =
      some (some v, CellState.live v (uadd1 σ.nStrong) σ.nWeak) ∧
    MyWeak.Rc.deref (CellState.live v (uadd1 σ.nStrong) σ.nWeak) = some v := by
  rcases MyWeak.weakReachable v ops2 σ hlen h with ⟨hc, _, _⟩ | ⟨_, hs0, _, _⟩
  · have hz : σ.nStrong ≠ 0 := by omega
    constructor
    · rw [hc]
      simp [MyWeak.Weak.upgrade, hz]
    · rfl
  · omega

/-- Claim C4, witness after construct 5, downgrade. -/
theorem C4_witness :
    MyWeak.Weak.upgrade (CellState.live (5 : Nat) 1 1) =
      some (some 5, CellState.live 5 (uadd1 1) 1) ∧
    MyWeak.Rc.deref (CellState.live (5 : Nat) (uadd1 1) 1) = some 5 :=
  C4_theorem 5 [Op.downgrade]
    { nStrong := 1, nWeak := 1, cell := CellState.live 5 1 1,
      events := [], upgrades := [] }
    (by decide) rfl (by decide)

/-- Claim C5: Rc::new creates the control block with strong count 1 and
weak count 0, and over every handle-respecting trace consisting only of
strong-handle duplications and disposals the strong counter equals the one
construction plus the duplications minus the disposals; stated additively
over Nat, which also expresses that the count never goes negative.  Since
the trace is universally quantified, the equation holds at every
observation point of any longer trace as well. -/
theorem C5_theorem {T : Type} (v : T) (ops2 : List Op) (σ : Sys T)
    (hlen : 1 + ops2.length < USIZE)
    (hops : ∀ op ∈ ops2, op = Op.cloneStrong ∨ op = Op.dropStrong)
    (h : run MyWeak.ops (MyWeak.init v) ops2 = some σ) :
    MyWeak.Rc.new v = CellState.live v 1 0 ∧
    strongCountOf σ.cell + countOp Op.dropStrong ops2 =
      1 + countOp Op.cloneStrong ops2 := by
  refine ⟨rfl, ?_⟩
  have hacc := MyWeak.strong_account ops2 (MyWeak.init v) σ hops h
  have hsc : strongCountOf σ.cell = σ.nStrong := by
    rcases MyWeak.weakReachable v ops2 σ hlen h with ⟨hc, _, _⟩ | ⟨hc, hs0, _, _⟩
    · rw [hc]
      rfl
    · rw [hc]
      simp [strongCountOf, hs0]
  rw [hsc]
  simpa [MyWeak.init] using hacc.1

/-- Claim C5, witness at the trace duplicate, dispose, duplicate after
construct 5 (final strong count 2, one disposal, two duplications). -/
theorem C5_witness :
    MyWeak.Rc.new (5 : Nat) = CellState.live 5 1 0 ∧
    strongCountOf (CellState.live (5 : Nat) 2 0) +
        countOp Op.dropStrong [Op.cloneStrong, Op.dropStrong, Op.cloneStrong] =
      1 + countOp Op.cloneStrong [Op.cloneStrong, Op.dropStrong, Op.cloneStrong] :=
  C5_theorem 5 [Op.cloneStrong, Op.dropStrong, Op.cloneStrong]
    { nStrong := 2, nWeak := 0, cell := CellState.live 5 2 0,
      events := [], upgrades := [] }
    (by decide) (by decide) rfl

/-- Claim C6, counterexample.  The claim states that Weak::upgrade in the
thread-safe variant performs its zero check and its increment as one
atomic read-modify-write (a compare-and-swap retry loop or equivalent) and
never as a separate load followed by an unconditional fetch_add.  The
instruction list of Weak::upgrade in my_arc.rs after observing the strong
count 1 is literally a separate Relaxed load followed by an unconditional
Relaxed fetch_add, and contains no compare-exchange instruction at all. -/
theorem C6_counterexample :
    MyArc.upgradeActs 1 =
      [MyArc.AtomicAct.load MyArc.Ctr.strong MyArc.MemOrder.relaxed,
       MyArc.AtomicAct.fetchAdd MyArc.Ctr.strong MyArc.MemOrder.relaxed] ∧
    (MyArc.upgradeActs 1).all (fun a => !a.isCompareExchange) = true :=
  ⟨rfl, rfl⟩

/-- Claim C6, amended.  Weak::upgrade in my_arc.rs is implemented as a
separate Relaxed load of the strong count followed, whenever the observed
value was nonzero, by a separate unconditional Relaxed fetch_add; no
compare-and-swap (or other conditional read-modify-write) instruction is
used, which is exactly the naive check-then-increment the spec flags as a
known gap of this version. -/
theorem C6_theorem (s : Nat) :
    MyArc.upgradeActs 0 =
      [MyArc.AtomicAct.load MyArc.Ctr.strong MyArc.MemOrder.relaxed] ∧
    MyArc.upgradeActs (s + 1) =
      [MyArc.AtomicAct.load MyArc.Ctr.strong MyArc.MemOrder.relaxed,
       MyArc.AtomicAct.fetchAdd MyArc.Ctr.strong MyArc.MemOrder.relaxed] ∧
    (MyArc.upgradeActs (s + 1)).all (fun a => !a.isCompareExchange) = true := by
  refine ⟨rfl, ?_, ?_⟩ <;>
    simp [MyArc.upgradeActs, MyArc.AtomicAct.isCompareExchange]

/-- Claim C7: in my_arc.rs every counter increment (Clone for Arc,
downgrade, the successful branch of upgrade, Clone for Weak) is a Relaxed
fetch_add; the strong-count decrement in Drop for Arc is a Release
fetch_sub whose Acquire fence is executed exactly when the old value was 1;
and the weak-count decrement in Drop for Weak follows the same
release-then-acquire-fence pattern, with the fence executed exactly when
the old weak count was 1 and the free following when the strong count then
reads 0. -/
theorem C7_theorem (oldS obsW oldW obsS o : Nat) :
    MyArc.cloneActs =
      [MyArc.AtomicAct.fetchAdd MyArc.Ctr.strong MyArc.MemOrder.relaxed] ∧
    MyArc.downgradeActs =
      [MyArc.AtomicAct.fetchAdd MyArc.Ctr.weak MyArc.MemOrder.relaxed] ∧
    MyArc.weakCloneActs =
      [MyArc.AtomicAct.fetchAdd MyArc.Ctr.weak MyArc.MemOrder.relaxed] ∧
    MyArc.upgradeActs (o + 1) =
      [MyArc.AtomicAct.load MyArc.Ctr.strong MyArc.MemOrder.relaxed,
       MyArc.AtomicAct.fetchAdd MyArc.Ctr.strong MyArc.MemOrder.relaxed] ∧
    (MyArc.dropActs oldS obsW).all (fun a => !a.isNonRelaxedIncrement) = true ∧
    (MyArc.weakDropActs oldW obsS).all (fun a => !a.isNonRelaxedIncrement) = true ∧
    (MyArc.dropActs oldS obsW).head? =
      some (MyArc.AtomicAct.fetchSub MyArc.Ctr.strong MyArc.MemOrder.release) ∧
    ((MyArc.AtomicAct.fence MyArc.MemOrder.acquire) ∈ MyArc.dropActs oldS obsW ↔
       oldS = 1) ∧
    (MyArc.weakDropActs oldW obsS).head? =
      some (MyArc.AtomicAct.fetchSub MyArc.Ctr.weak MyArc.MemOrder.release) ∧
    ((MyArc.AtomicAct.fence MyArc.MemOrder.acquire) ∈ MyArc.weakDropActs oldW obsS ↔
       oldW = 1) ∧
    MyArc.weakDropActs 1 0 =
      [MyArc.AtomicAct.fetchSub MyArc.Ctr.weak MyArc.MemOrder.release,
       MyArc.AtomicAct.fence MyArc.MemOrder.acquire,
       MyArc.AtomicAct.load MyArc.Ctr.strong MyArc.MemOrder.relaxed,
       MyArc.AtomicAct.freeBlock] := by
  refine ⟨rfl, rfl, rfl, ?_, ?_, ?_, rfl, ?_, rfl, ?_, rfl⟩
  · simp [MyArc.upgradeActs]
  · by_cases h1 : oldS = 1 <;> by_cases h2 : obsW = 0 <;>
      simp [MyArc.dropActs, h1, h2, MyArc.AtomicAct.isNonRelaxedIncrement]
  · by_cases h1 : oldW = 1 <;> by_cases h2 : obsS = 0 <;>
      simp [MyArc.weakDropActs, h1, h2, MyArc.AtomicAct.isNonRelaxedIncrement]
  · by_cases h1 : oldS = 1 <;> by_cases h2 : obsW = 0 <;>
      simp [MyArc.dropActs, h1, h2]
  · by_cases h1 : oldW = 1 <;> by_cases h2 : obsS = 0 <;>
      simp [MyArc.weakDropActs, h1, h2]

/-- Claim C8: in the thread-safe variant, the explicit
strong_count.store(0, Relaxed) taken when the last strong handle is
disposed while weak handles remain is behaviorally equivalent to omitting
the store: over every handle-respecting operation sequence the two versions
produce identical system states, hence identical counts, upgrade results
and free/destroy events. -/
theorem C8_theorem {T : Type} (v : T) (ops2 : List Op) :
    run MyArc.ops (MyArc.init v) ops2 = run MyArc.opsNoStore (MyArc.init v) ops2 := by
  have h : (MyArc.ops : Ops T) = MyArc.opsNoStore := by
    unfold MyArc.ops MyArc.opsNoStore
    rw [MyArc.drop_eq]
  rw [h]

/-- Claim C9: each counter operation of the single-threaded variant
modifies exactly one counter and leaves the stored value unchanged: Clone
for Rc touches only the strong count, downgrade and Clone for Weak touch
only the weak count, and a successful upgrade (strong count nonzero,
written s + 1) touches only the strong count; each equation exhibits the
complete post-state. -/
theorem C9_theorem {T : Type} (v : T) (s w : Nat) :
    MyWeak.Rc.clone (CellState.live v s w) =
      some (CellState.live v (uadd1 s) w) ∧
    MyWeak.Rc.downgrade (CellState.live v s w) =
      some (CellState.live v s (uadd1 w)) ∧
    MyWeak.Weak.clone (CellState.live v s w) =
      some (CellState.live v s (uadd1 w)) ∧
    MyWeak.Weak.upgrade (CellState.live v (s + 1) w) =
      some (some v, CellState.live v (uadd1 (s + 1)) w) := by
  refine ⟨rfl, rfl, rfl, ?_⟩
  simp [MyWeak.Weak.upgrade]

/-- Claim C10: in my_weak.rs both Drop implementations subtract only from a
counter observed to exceed 1, in which case the wrapping usize decrement
equals the exact decrement and stays at least 1; when the observed counter
is at most 1 they instead free the block or store the literal 0; and
consequently on every handle-respecting trace from construction the stored
counters equal the ghost handle counts, so neither usize counter ever
underflows. -/
theorem C10_theorem {T : Type} (v : T) (s w : Nat) (ops2 : List Op) (σ : Sys T)
    (hsU : s ≤ USIZE) (hwU : w ≤ USIZE)
    (hlen : 1 + ops2.length < USIZE)
    (h : run MyWeak.ops (MyWeak.init v) ops2 = some σ) :
    (1 < s → MyWeak.Rc.drop (CellState.live v s w) =
        some (CellState.live v (s - 1) w, []) ∧ 1 ≤ s - 1) ∧
    (1 < w → MyWeak.Weak.drop (CellState.live v s w) =
        some (CellState.live v s (w - 1), []) ∧ 1 ≤ w - 1) ∧
    (¬ 1 < s → w ≠ 0 → MyWeak.Rc.drop (CellState.live v s w) =
        some (CellState.live v 0 w, [])) ∧
    (¬ 1 < w → s ≠ 0 → MyWeak.Weak.drop (CellState.live v s w) =
        some (CellState.live v s 0, [])) ∧
    (σ.cell = CellState.freed ∨ σ.cell = CellState.live v σ.nStrong σ.nWeak) := by
  refine ⟨?_, ?_, ?_, ?_, ?_⟩
  · intro h1
    have hsub : usub1 s = s - 1 := usub1_eq (by omega) hsU
    exact ⟨by simp [MyWeak.Rc.drop, h1, hsub], by omega⟩
  · intro h1
    have hsub : usub1 w = w - 1 := usub1_eq (by omega) hwU
    exact ⟨by simp [MyWeak.Weak.drop, h1, hsub], by omega⟩
  · intro h1 h2
    simp [MyWeak.Rc.drop, h1, h2]
  · intro h1 h2
    simp [MyWeak.Weak.drop, h1, h2]
  · rcases MyWeak.weakReachable v ops2 σ hlen h with ⟨hc, _, _⟩ | ⟨hc, _, _, _⟩
    · exact Or.inr hc
    · exact Or.inl hc

/-- Claim C10, witness at counters 2 and 3 and the trace that disposes the
single strong handle of construct 5. -/
theorem C10_witness :
    (1 < 2 → MyWeak.Rc.drop (CellState.live (5 : Nat) 2 3) =
        some (CellState.live 5 (2 - 1) 3, []) ∧ 1 ≤ 2 - 1) ∧
    (1 < 3 → MyWeak.Weak.drop (CellState.live (5 : Nat) 2 3) =
        some (CellState.live 5 2 (3 - 1), []) ∧ 1 ≤ 3 - 1) ∧
    (¬ 1 < 2 → 3 ≠ 0 → MyWeak.Rc.drop (CellState.live (5 : Nat) 2 3) =
        some (CellState.live 5 0 3, [])) ∧
    (¬ 1 < 3 → 2 ≠ 0 → MyWeak.Weak.drop (CellState.live (5 : Nat) 2 3) =
        some (CellState.live 5 2 0, [])) ∧
    ((CellState.freed : CellState Nat) = CellState.freed ∨
       (CellState.freed : CellState Nat) = CellState.live 5 0 0) :=
  C10_theorem 5 2 3 [Op.dropStrong]
    { nStrong := 0, nWeak := 0, cell := CellState.freed,
      events := [Event.valueDestroyed, Event.blockFreed], upgrades := [] }
    (by decide) (by decide) (by decide) rfl
